import Mathlib

/-!
Verification of the BLS_PULSE segmented signal-residue search of
`src/python/bls_pulse_python.py`, over a shallow embedding in which IEEE
floating-point values are modelled as exact rationals together with a quiet
NaN that propagates through arithmetic and makes every ordered comparison
false.  Infinities do not arise on the modelled code paths (every reachable
division with a finite numerator has its denominator guarded), so a division
by zero is folded into NaN as well.
-/

attribute [local semireducible] Rat.mul Rat.inv Rat.add Rat.sub

/-- A floating-point value: NaN or a finite rational. -/
inductive FP where
  | nan : FP
  | fin : ℚ → FP
deriving DecidableEq

/-- `np.isfinite` / the negation of `np.isnan` in this model. -/
def FP.isFin : FP → Bool
  | .nan => false
  | .fin _ => true

def FP.add : FP → FP → FP
  | .fin a, .fin b => .fin (a + b)
  | _, _ => .nan

def FP.sub : FP → FP → FP
  | .fin a, .fin b => .fin (a - b)
  | _, _ => .nan

def FP.mul : FP → FP → FP
  | .fin a, .fin b => .fin (a * b)
  | _, _ => .nan

/-- Floating division; division by zero (unreachable behind the guards of the
modelled code) is collapsed to NaN. -/
def FP.div : FP → FP → FP
  | .fin a, .fin b => if b = 0 then .nan else .fin (a / b)
  | _, _ => .nan

/-- IEEE `<=`: false whenever either side is NaN. -/
def FP.le : FP → FP → Bool
  | .fin a, .fin b => decide (a ≤ b)
  | _, _ => false

/-- IEEE `>` (first argument greater): false whenever either side is NaN. -/
def FP.gt : FP → FP → Bool
  | .fin a, .fin b => decide (b < a)
  | _, _ => false

/-- IEEE `<`: false whenever either side is NaN. -/
def FP.lt (x y : FP) : Bool := FP.gt y x

/-- Pick the extreme of a nonempty list of rationals:
most negative for `direction < 0`, most positive for `direction > 0`,
largest magnitude (first found on ties) for `direction = 0`. -/
def qExtreme (q : ℚ) (qs : List ℚ) (direction : ℤ) : ℚ :=
  if direction < 0 then qs.foldl min q
  else if 0 < direction then qs.foldl max q
  else qs.foldl (fun a b => if |a| < |b| then b else a) q

/-- Modelled from the spec: the repository's `utils.extreme` (module `utils`
is not under `src/`).  Spec 4.3: the depth is "the extreme (most negative if
direction favors dips, most positive otherwise, or max-magnitude if
direction-agnostic) binned flux value" of the given values.  On data
containing a NaN it returns NaN, as a numpy min/max/argmax over data with a
NaN yields NaN. -/
def extreme (l : List FP) (direction : ℤ) : FP :=
  if l.any (fun x => !x.isFin) then FP.nan
  else
    match l.filterMap (fun x => match x with | FP.fin q => some q | FP.nan => none) with
    | [] => FP.nan
    | q :: qs => FP.fin (qExtreme q qs direction)

/-- `convert_duration_to_bins` (source lines 15-39).  The float expression
`duration_days*nbins/segment_size` is modelled exactly over ℚ;
`int(np.floor(.))` is `Int.floor` and `int(np.ceil(.))` is `Int.ceil`.
The unknown-mode branch of the source has no error handler and returns 0. -/
def convert_duration_to_bins (duration_days : ℚ) (nbins : ℤ) (segment_size : ℚ)
    (duration_type : String) : ℤ :=
  if duration_type = "min" then
    max ⌊duration_days * (nbins : ℚ) / segment_size⌋ 1
  else if duration_type = "max" then
    max 1 (min ⌈duration_days * (nbins : ℚ) / segment_size⌉ nbins)
  else
    0

/-- The four output slots of `calc_sr_max` (source lines 50-57):
best signal residue, duration, depth, midtime. -/
structure SRResult where
  best_SR : FP
  thisDuration : FP
  thisDepth : FP
  thisMidTime : FP
deriving DecidableEq

/-- All four outputs start as NaN (source lines 50-57). -/
def srInit : SRResult := ⟨FP.nan, FP.nan, FP.nan, FP.nan⟩

/-- The body of the `if sr > best_SR or np.isnan(best_SR)` update
(source lines 69-80): record the new best SR, the duration
`binTime[i2] - binTime[i1]`, the depth `extreme(binFlx[i1:i2+1], direction)`
and the midtime `(binTime[i2] + binTime[i1]) / 2`. -/
def srUpdate (binTime binFlx : List FP) (direction : ℤ) (st : SRResult) (sr : FP)
    (i1 i2 : ℕ) : SRResult :=
  if FP.gt sr st.best_SR || !st.best_SR.isFin then
    { best_SR := sr
      thisDuration := FP.sub (binTime.getD i2 FP.nan) (binTime.getD i1 FP.nan)
      thisDepth := extreme ((binFlx.drop i1).take (i2 + 1 - i1)) direction
      thisMidTime := FP.div (FP.add (binTime.getD i2 FP.nan) (binTime.getD i1 FP.nan)) (FP.fin 2) }
  else st

/-- The admissibility test of source line 66:
`i2 - i1 >= mindur and r >= r_min and direction*s >= 0 and r < n`,
as a function of the running sums `s` and `r`. -/
def guardB (n mindur r_min direction : ℤ) (i1 i2 : ℕ) (s : FP) (r : ℤ) : Bool :=
  decide (mindur ≤ (i2 : ℤ) - (i1 : ℤ)) && decide (r_min ≤ r) &&
    FP.le (FP.fin 0) (FP.mul (FP.fin (direction : ℚ)) s) && decide (r < n)

/-- The signal residue `s**2 / (r * (n - r))` of source line 67.
`r` and `n` are Python ints, so the denominator is exact. -/
def srFormula (n : ℤ) (s : FP) (r : ℤ) : FP :=
  FP.div (FP.mul s s) (FP.fin ((r * (n - r) : ℤ) : ℚ))

/-- One pass of the inner loop body (source lines 62-80) at index `i2`,
threading the running sums `s`, `r` and the output state. -/
def innerStep (n mindur r_min direction : ℤ) (binTime binFlx : List FP) (ppb : List ℤ)
    (i1 : ℕ) (acc : FP × ℤ × SRResult) (i2 : ℕ) : FP × ℤ × SRResult :=
  let s := FP.add acc.1 (binFlx.getD i2 FP.nan)
  let r := acc.2.1 + ppb.getD i2 0
  if guardB n mindur r_min direction i1 i2 s r then
    (s, r, srUpdate binTime binFlx direction acc.2.2 (srFormula n s r) i1 i2)
  else
    (s, r, acc.2.2)

/-- Length of Python's `range(i1, min(i1 + maxdur + 1, nbins))` (source line 62). -/
def innerLen (nbins : ℕ) (maxdur : ℤ) (i1 : ℕ) : ℕ :=
  (min ((i1 : ℤ) + maxdur + 1) (nbins : ℤ) - (i1 : ℤ)).toNat

/-- The inner index sequence `range(i1, min(i1 + maxdur + 1, nbins))`. -/
def innerIdx (nbins : ℕ) (maxdur : ℤ) (i1 : ℕ) : List ℕ :=
  List.range' i1 (innerLen nbins maxdur i1)

/-- `calc_sr_max` (source lines 42-84).  The source's `trial_segment`,
`this_seg` and `lc_samplerate` parameters are unused in its body and are
omitted.  Out-of-range list reads (unreachable when the three lists have
length `nbins`, as at the call site) are totalized to NaN. -/
def calc_sr_max (n : ℤ) (nbins : ℕ) (mindur maxdur r_min direction : ℤ)
    (binTime binFlx : List FP) (ppb : List ℤ) : SRResult :=
  (List.range nbins).foldl
    (fun st i1 =>
      ((innerIdx nbins maxdur i1).foldl
        (innerStep n mindur r_min direction binTime binFlx ppb i1) (FP.fin 0, 0, st)).2.2)
    srInit

/-- Sum of `binFlx[i1], ..., binFlx[e-1]` (exclusive right end), accumulated
left to right exactly as the inner loop does, starting from the int 0. -/
def sAccE (binFlx : List FP) (i1 e : ℕ) : FP :=
  (List.range' i1 (e - i1)).foldl (fun a k => FP.add a (binFlx.getD k FP.nan)) (FP.fin 0)

/-- Sum of `ppb[i1], ..., ppb[e-1]` (exclusive right end). -/
def rAccE (ppb : List ℤ) (i1 e : ℕ) : ℤ :=
  (List.range' i1 (e - i1)).foldl (fun a k => a + ppb.getD k 0) 0

/-- The running flux sum `s` of the pair `(i1, i2)`: sum of `binFlx[i1..i2]`
(inclusive). -/
def sAcc (binFlx : List FP) (i1 i2 : ℕ) : FP := sAccE binFlx i1 (i2 + 1)

/-- The running weight `r` of the pair `(i1, i2)`: sum of `ppb[i1..i2]`
(inclusive). -/
def rAcc (ppb : List ℤ) (i1 i2 : ℕ) : ℤ := rAccE ppb i1 (i2 + 1)

/-- A pair `(i1, i2)` is admissible iff all four conditions of source line 66
hold of its sums: `i2 - i1 ≥ mindur`, `r ≥ r_min`, `direction*s ≥ 0`,
`r < n`. -/
def admissibleB (n mindur r_min direction : ℤ) (binFlx : List FP) (ppb : List ℤ)
    (i1 i2 : ℕ) : Bool :=
  guardB n mindur r_min direction i1 i2 (sAcc binFlx i1 i2) (rAcc ppb i1 i2)

/-- The signal residue of the pair `(i1, i2)`. -/
def srOf (n : ℤ) (binFlx : List FP) (ppb : List ℤ) (i1 i2 : ℕ) : FP :=
  srFormula n (sAcc binFlx i1 i2) (rAcc ppb i1 i2)

/-- All visited pairs, in traversal order: `i1` ascending over `[0, nbins)`,
then `i2` ascending over `range(i1, min(i1 + maxdur + 1, nbins))`. -/
def allPairs (nbins : ℕ) (maxdur : ℤ) : List (ℕ × ℕ) :=
  (List.range nbins).flatMap (fun i1 => (innerIdx nbins maxdur i1).map (fun i2 => (i1, i2)))

/-- The admissible pairs, in traversal order. -/
def contribs (n : ℤ) (nbins : ℕ) (mindur maxdur r_min direction : ℤ)
    (binFlx : List FP) (ppb : List ℤ) : List (ℕ × ℕ) :=
  (allPairs nbins maxdur).filter
    (fun p => admissibleB n mindur r_min direction binFlx ppb p.1 p.2)

/-- One contribution of an admissible pair to the running best. -/
def specStep (n direction : ℤ) (binTime binFlx : List FP) (ppb : List ℤ)
    (st : SRResult) (p : ℕ × ℕ) : SRResult :=
  srUpdate binTime binFlx direction st (srOf n binFlx ppb p.1 p.2) p.1 p.2

/-- The search stated the way the spec describes it: exactly the admissible
pairs, in traversal order, contribute their signal residue to the running
best. -/
def calc_sr_max_spec (n : ℤ) (nbins : ℕ) (mindur maxdur r_min direction : ℤ)
    (binTime binFlx : List FP) (ppb : List ℤ) : SRResult :=
  (contribs n nbins mindur maxdur r_min direction binFlx ppb).foldl
    (specStep n direction binTime binFlx ppb) srInit

/-- Keep the incumbent unless the challenger's signal residue is strictly
greater (the source's `sr > best_SR` test): ties keep the earlier pair. -/
def pickStep (n : ℤ) (binFlx : List FP) (ppb : List ℤ) (acc : Option (ℕ × ℕ))
    (p : ℕ × ℕ) : Option (ℕ × ℕ) :=
  match acc with
  | none => some p
  | some b => if FP.gt (srOf n binFlx ppb p.1 p.2) (srOf n binFlx ppb b.1 b.2) then some p else some b

/-- The winning pair: the first pair, in traversal order, attaining the
largest signal residue. -/
def pickBest (n : ℤ) (binFlx : List FP) (ppb : List ℤ) (l : List (ℕ × ℕ)) :
    Option (ℕ × ℕ) :=
  l.foldl (pickStep n binFlx ppb) none

/-- The candidate recorded for a winning pair: its signal residue, the
duration `binTime[i2] - binTime[i1]`, the depth
`extreme(binFlx[i1:i2+1], direction)` and the midtime
`(binTime[i2] + binTime[i1]) / 2`; all NaN when there is no winner. -/
def renderBest (n direction : ℤ) (binTime binFlx : List FP) (ppb : List ℤ) :
    Option (ℕ × ℕ) → SRResult
  | none => srInit
  | some p =>
    { best_SR := srOf n binFlx ppb p.1 p.2
      thisDuration := FP.sub (binTime.getD p.2 FP.nan) (binTime.getD p.1 FP.nan)
      thisDepth := extreme ((binFlx.drop p.1).take (p.2 + 1 - p.1)) direction
      thisMidTime := FP.div (FP.add (binTime.getD p.2 FP.nan) (binTime.getD p.1 FP.nan)) (FP.fin 2) }

/-- The four per-segment output sequences of `bls_pulse`
(source lines 143-146 and 229-230). -/
structure BLSOutput where
  srsq : List FP
  duration : List FP
  depth : List FP
  midtime : List FP
deriving DecidableEq

/-- Source lines 102-104: drop every sample whose flux is not finite, keeping
time and flux paired (`ndx = np.isfinite(flux)`).  Time values are modelled
as rationals (the ingestion contract keeps them finite). -/
def finitePairs (time : List ℚ) (flux : List FP) : List (ℚ × ℚ) :=
  (time.zip flux).filterMap
    (fun p => match p.2 with | FP.fin q => some (p.1, q) | FP.nan => none)

/-- `np.diff`: differences of consecutive elements. -/
def diffsOf (l : List ℚ) : List ℚ := (l.zip l.tail).map (fun p => p.2 - p.1)

/-- `np.median` of a nonempty list: sort, then take the middle element (odd
length) or the mean of the two middle elements (even length). -/
def median (l : List ℚ) : ℚ :=
  if l.length % 2 = 1 then (l.insertionSort (· ≤ ·)).getD (l.length / 2) 0
  else ((l.insertionSort (· ≤ ·)).getD (l.length / 2 - 1) 0
      + (l.insertionSort (· ≤ ·)).getD (l.length / 2) 0) / 2

/-- Source lines 128-131: the samples of segment `q` are those with
`q*segment_size <= t < (q+1)*segment_size`. -/
def segMembers (pts : List (ℚ × ℚ)) (seg : ℚ) (q : ℕ) : List (ℚ × ℚ) :=
  pts.filter (fun p => decide ((q : ℚ) * seg ≤ p.1) && decide (p.1 < ((q : ℚ) + 1) * seg))

/-- `np.linspace a b (nb+1)`: the `nb+1` equally spaced bin edges
`a + i*(b-a)/nb` (source line 186).  For `nb = 0` this is the single
point `[a]`, matching `np.linspace(a, b, 1)`. -/
def linspace (a b : ℚ) (nb : ℕ) : List ℚ :=
  (List.range (nb + 1)).map (fun i => a + (b - a) * (i : ℚ) / (nb : ℚ))

/-- `np.digitize x edges` for increasing edges (default `right=False`):
the number of edges `≤ x`, i.e. the index `i` with
`edges[i-1] <= x < edges[i]` (source line 187). -/
def digitize (x : ℚ) (edges : List ℚ) : ℕ :=
  edges.countP (fun e => decide (e ≤ x))

/-- The samples of bin `i` (1-based, as `np.digitize` numbers them). -/
def binMembers (pts : List (ℚ × ℚ)) (edges : List ℚ) (i : ℕ) : List (ℚ × ℚ) :=
  pts.filter (fun p => decide (digitize p.1 edges = i))

/-- `np.mean` of a list of rationals: NaN for an empty list. -/
def listMeanFP (l : List ℚ) : FP :=
  match l with
  | [] => FP.nan
  | _ => FP.fin (l.sum / (l.length : ℚ))

/-- Source line 188: mean sample time of each of the `nbins` bins. -/
def binnedTimes (pts : List (ℚ × ℚ)) (edges : List ℚ) (nbins : ℕ) : List FP :=
  (List.range' 1 nbins).map (fun i => listMeanFP ((binMembers pts edges i).map Prod.fst))

/-- Source lines 189-190: mean flux of each of the `nbins` bins. -/
def binnedFluxes (pts : List (ℚ × ℚ)) (edges : List ℚ) (nbins : ℕ) : List FP :=
  (List.range' 1 nbins).map (fun i => listMeanFP ((binMembers pts edges i).map Prod.snd))

/-- Source line 191: number of points in each of the `nbins` bins. -/
def ppbOf (pts : List (ℚ × ℚ)) (edges : List ℚ) (nbins : ℕ) : List ℤ :=
  (List.range' 1 nbins).map (fun i => ((binMembers pts edges i).length : ℤ))

/-- The state carried across segment iterations: the current `mindur` and
`maxdur` variables (which the source only recomputes inside the
`if n < nbins` branch, lines 174-180) and the four growing output arrays. -/
structure SegAcc where
  mindur : ℤ
  maxdur : ℤ
  out : BLSOutput
deriving DecidableEq

/-- Source lines 200-206: the candidate is recorded only when its signal
residue is finite; otherwise the four NaN defaults of lines 161-164 stand. -/
def recordCandidate (out : BLSOutput) (res : SRResult) : BLSOutput :=
  if res.best_SR.isFin then
    ⟨out.srsq ++ [res.best_SR], out.duration ++ [res.thisDuration],
     out.depth ++ [res.thisDepth], out.midtime ++ [res.thisMidTime]⟩
  else
    ⟨out.srsq ++ [FP.nan], out.duration ++ [FP.nan],
     out.depth ++ [FP.nan], out.midtime ++ [FP.nan]⟩

/-- Source lines 166-198: bin the members of segment `q` into
`nbins = min(point count, requested bins)` bins and run `calc_sr_max` on
them with the supplied (already effective) duration bounds. -/
def segCalc (n_bins : ℕ) (seg : ℚ) (mindur maxdur r_min direction : ℤ)
    (pts : List (ℚ × ℚ)) (q : ℕ) : SRResult :=
  let this := segMembers pts seg q
  let n : ℕ := this.length
  let nbins : ℕ := if n < n_bins then n else n_bins
  let edges := linspace ((q : ℚ) * seg) (((q : ℚ) + 1) * seg) nbins
  calc_sr_max (n : ℤ) nbins mindur maxdur r_min direction
    (binnedTimes this edges nbins) (binnedFluxes this edges nbins) (ppbOf this edges nbins)

/-- One iteration of the segment loop (source lines 153-206): count the
segment's points, recompute the duration bounds when (and only when) the
segment has fewer points than the requested bin count, bin the points, run
`calc_sr_max`, and append the candidate (all NaN unless the best signal
residue is finite). -/
def segStep (n_bins : ℕ) (seg min_duration max_duration : ℚ) (r_min direction : ℤ)
    (pts : List (ℚ × ℚ)) (acc : SegAcc) (q : ℕ) : SegAcc :=
  let n : ℕ := (segMembers pts seg q).length
  let mindur : ℤ :=
    if n < n_bins then convert_duration_to_bins min_duration (n : ℤ) seg "min" else acc.mindur
  let maxdur : ℤ :=
    if n < n_bins then convert_duration_to_bins max_duration (n : ℤ) seg "max" else acc.maxdur
  { mindur := mindur
    maxdur := maxdur
    out := recordCandidate acc.out (segCalc n_bins seg mindur maxdur r_min direction pts q) }

/-- Source line 127: `nsegments = int(floor((amax(time) - amin(time)) / segment_size) + 1)`
over the flux-filtered samples; negative values give an empty `xrange`. -/
def nsegmentsOf (pts : List (ℚ × ℚ)) (seg : ℚ) : ℕ :=
  (⌊((pts.map Prod.fst).foldl max ((pts.map Prod.fst).headD 0)
      - (pts.map Prod.fst).foldl min ((pts.map Prod.fst).headD 0)) / seg⌋ + 1).toNat

/-- `bls_pulse` (source lines 87-231).  `fluxerr` is accepted but never read,
as in the source.  The function returns `none` exactly where the Python
reference raises: when the filtered light curve has fewer than two points
(`np.median` of an empty diff array is NaN and `int(ceil(nan))` raises),
when the median sample spacing is zero (division by zero reaching `int`),
or when `segment_size` is zero (float division by zero).  Printing, logging
and the unused `lightcurve_timebaseline` are omitted. -/
def bls_pulse (time : List ℚ) (flux fluxerr : List FP) (n_bins : ℕ)
    (segment_size min_duration max_duration : ℚ) (direction : ℤ) : Option BLSOutput :=
  let mindur0 := convert_duration_to_bins min_duration (n_bins : ℤ) segment_size "min"
  let maxdur0 := convert_duration_to_bins max_duration (n_bins : ℤ) segment_size "max"
  let pts := finitePairs time flux
  let diffs := diffsOf (pts.map Prod.fst)
  if diffs = [] then none
  else
    let rate := median diffs
    if rate = 0 then none
    else if segment_size = 0 then none
    else
      let r_min : ℤ := ⌈min_duration / rate⌉
      some ((List.range (nsegmentsOf pts segment_size)).foldl
        (segStep n_bins segment_size min_duration max_duration r_min direction pts)
        ⟨mindur0, maxdur0, ⟨[], [], [], []⟩⟩).out

/-- The all-or-nothing contract for entry `j` of the output: the four fields
are simultaneously finite or simultaneously NaN. -/
def allOrNothing (out : BLSOutput) (j : ℕ) : Prop :=
  ((out.srsq.getD j FP.nan).isFin = true ∧ (out.duration.getD j FP.nan).isFin = true
    ∧ (out.depth.getD j FP.nan).isFin = true ∧ (out.midtime.getD j FP.nan).isFin = true)
  ∨ (out.srsq.getD j FP.nan = FP.nan ∧ out.duration.getD j FP.nan = FP.nan
    ∧ out.depth.getD j FP.nan = FP.nan ∧ out.midtime.getD j FP.nan = FP.nan)

/-- Concrete run A: a sparse segment 0 (one point at t = 0.002) followed by a
three-point segment 1; fluxes all finite. -/
def tA : List ℚ := [2/1000, 3/1000, 45/10000, 52/10000]

def fA : List FP := [FP.fin 0, FP.fin (-1), FP.fin (-1), FP.fin 0]

/-- Concrete run B: identical to run A on segment 1 and on the pipeline-wide
median sample spacing (1/1000) and rMin (2), but segment 0 now has three
points, so no bound reduction happens there. -/
def tB : List ℚ := [0, 1/1000, 25/10000, 3/1000, 45/10000, 52/10000]

def fB : List FP := [FP.fin 0, FP.fin 0, FP.fin 0, FP.fin (-1), FP.fin (-1), FP.fin 0]

/-- Segment 1 of run A: its member samples. -/
def ptsA1 : List (ℚ × ℚ) := segMembers (finitePairs tA fA) (3/1000) 1

/-- Segment 1 of run A: its bin edges (three bins over [0.003, 0.006)). -/
def edgesA1 : List ℚ := linspace ((1 : ℚ) * (3/1000)) (((1 : ℚ) + 1) * (3/1000)) 3

/-- Concrete run C: two points two segment-lengths apart, so segment 1 of the
three segments contains no data point at all. -/
def tC : List ℚ := [1/2, 5/2]

def fC : List FP := [FP.fin 0, FP.fin 0]

/-! ### Basic facts about the floating-point model -/

theorem FP.isFin_iff_exists {x : FP} : x.isFin = true ↔ ∃ q : ℚ, x = FP.fin q := by
  cases x <;> simp [FP.isFin]

theorem FP.add_isFin_inv {a b : FP} (h : (FP.add a b).isFin = true) :
    a.isFin = true ∧ b.isFin = true := by
  cases a <;> cases b <;> simp_all [FP.add, FP.isFin]

theorem FP.mul_isFin_inv {a b : FP} (h : (FP.mul a b).isFin = true) :
    a.isFin = true ∧ b.isFin = true := by
  cases a <;> cases b <;> simp_all [FP.mul, FP.isFin]

theorem FP.le_isFin {a b : FP} (h : FP.le a b = true) :
    a.isFin = true ∧ b.isFin = true := by
  cases a <;> cases b <;> simp_all [FP.le, FP.isFin]

theorem FP.sub_isFin {a b : FP} (ha : a.isFin = true) (hb : b.isFin = true) :
    (FP.sub a b).isFin = true := by
  cases a <;> cases b <;> simp_all [FP.sub, FP.isFin]

theorem FP.add_isFin {a b : FP} (ha : a.isFin = true) (hb : b.isFin = true) :
    (FP.add a b).isFin = true := by
  cases a <;> cases b <;> simp_all [FP.add, FP.isFin]

theorem FP.div_fin_isFin {a : FP} (ha : a.isFin = true) {q : ℚ} (hq : q ≠ 0) :
    (FP.div a (FP.fin q)).isFin = true := by
  cases a <;> simp_all [FP.div, FP.isFin]

theorem FP.div_isFin_inv {a b : FP} (h : (FP.div a b).isFin = true) :
    a.isFin = true ∧ b.isFin = true := by
  cases a <;> cases b <;> simp_all [FP.div, FP.isFin]

/-- A left fold of floating additions is finite only if the seed and every
addend are finite. -/
theorem foldl_add_isFin (bf : List FP) :
    ∀ (L : List ℕ) (a0 : FP),
      (L.foldl (fun a k => FP.add a (bf.getD k FP.nan)) a0).isFin = true →
      a0.isFin = true ∧ ∀ k ∈ L, (bf.getD k FP.nan).isFin = true := by
  intro L
  induction L with
  | nil => intro a0 h; exact ⟨h, by simp⟩
  | cons k L ih =>
    intro a0 h
    simp only [List.foldl_cons] at h
    obtain ⟨h1, h2⟩ := ih _ h
    obtain ⟨ha, hk⟩ := FP.add_isFin_inv h1
    refine ⟨ha, ?_⟩
    intro k' hk'
    rcases List.mem_cons.mp hk' with rfl | hmem
    · exact hk
    · exact h2 k' hmem

/-- A finite `getD` read is an in-range read. -/
theorem getD_isFin_lt_length {bf : List FP} {k : ℕ}
    (h : (bf.getD k FP.nan).isFin = true) : k < bf.length := by
  by_contra hk
  rw [List.getD_eq_getD_get?, List.get?_eq_none.mpr (by omega)] at h
  simp [FP.isFin] at h

/-! ### The accumulation of the inner loop equals the per-pair sums -/

theorem sAccE_succ (bf : List FP) (i1 j : ℕ) (h : i1 ≤ j) :
    sAccE bf i1 (j + 1) = FP.add (sAccE bf i1 j) (bf.getD j FP.nan) := by
  unfold sAccE
  rw [show j + 1 - i1 = (j - i1) + 1 from by omega, List.range'_concat, List.foldl_append]
  simp only [List.foldl_cons, List.foldl_nil]
  congr 2
  omega

theorem rAccE_succ (ppb : List ℤ) (i1 j : ℕ) (h : i1 ≤ j) :
    rAccE ppb i1 (j + 1) = rAccE ppb i1 j + ppb.getD j 0 := by
  unfold rAccE
  rw [show j + 1 - i1 = (j - i1) + 1 from by omega, List.range'_concat, List.foldl_append]
  simp only [List.foldl_cons, List.foldl_nil]
  congr 2
  omega

theorem sAccE_self (bf : List FP) (i1 : ℕ) : sAccE bf i1 i1 = FP.fin 0 := by
  unfold sAccE
  simp

theorem rAccE_self (ppb : List ℤ) (i1 : ℕ) : rAccE ppb i1 i1 = 0 := by
  unfold rAccE
  simp

/-- The inner loop of `calc_sr_max`, started at `j ≥ i1` with the running
sums of `[i1, j)`, is the fold of the per-pair contributions over exactly the
admissible indices. -/
theorem inner_fold_eq (n mindur r_min direction : ℤ) (bt bf : List FP) (ppb : List ℤ)
    (i1 : ℕ) :
    ∀ (len j : ℕ) (st : SRResult), i1 ≤ j →
      ((List.range' j len).foldl (innerStep n mindur r_min direction bt bf ppb i1)
          (sAccE bf i1 j, rAccE ppb i1 j, st)).2.2
        = ((List.range' j len).filter
              (fun i2 => admissibleB n mindur r_min direction bf ppb i1 i2)).foldl
            (fun st i2 => specStep n direction bt bf ppb st (i1, i2)) st := by
  intro len
  induction len with
  | zero => intro j st _; rfl
  | succ len ih =>
    intro j st h
    rw [List.range'_succ]
    simp only [List.foldl_cons, List.filter_cons]
    have hstep : innerStep n mindur r_min direction bt bf ppb i1
        (sAccE bf i1 j, rAccE ppb i1 j, st) j
        = (sAccE bf i1 (j + 1), rAccE ppb i1 (j + 1),
            if admissibleB n mindur r_min direction bf ppb i1 j then
              specStep n direction bt bf ppb st (i1, j)
            else st) := by
      unfold innerStep specStep admissibleB srOf sAcc rAcc
      rw [← sAccE_succ bf i1 j h, ← rAccE_succ ppb i1 j h]
      dsimp only
      split <;> rfl
    rw [hstep]
    by_cases ha : admissibleB n mindur r_min direction bf ppb i1 j = true
    · simp only [ha, if_true, if_pos]
      rw [ih (j + 1) _ (by omega)]
      simp only [List.foldl_cons]
    · simp only [ha, if_false, Bool.false_eq_true, if_neg]
      exact ih (j + 1) st (by omega)

/-- The whole double loop of `calc_sr_max`, over any list of start bins, is
the fold of the per-pair contributions over the admissible pairs in traversal
order. -/
theorem calc_fold_eq (n mindur r_min direction : ℤ) (bt bf : List FP) (ppb : List ℤ)
    (nbins : ℕ) (maxdur : ℤ) :
    ∀ (L : List ℕ) (st : SRResult),
      L.foldl (fun st i1 =>
          ((innerIdx nbins maxdur i1).foldl
            (innerStep n mindur r_min direction bt bf ppb i1) (FP.fin 0, 0, st)).2.2) st
        = ((L.flatMap (fun i1 => (innerIdx nbins maxdur i1).map (fun i2 => (i1, i2)))).filter
              (fun p => admissibleB n mindur r_min direction bf ppb p.1 p.2)).foldl
            (specStep n direction bt bf ppb) st := by
  intro L
  induction L with
  | nil => intro st; rfl
  | cons i1 L ih =>
    intro st
    simp only [List.foldl_cons, List.flatMap_cons, List.filter_append, List.foldl_append]
    rw [show ((FP.fin 0 : FP), (0 : ℤ), st) = (sAccE bf i1 i1, rAccE ppb i1 i1, st) from by
      rw [sAccE_self, rAccE_self]]
    rw [show innerIdx nbins maxdur i1 = List.range' i1 (innerLen nbins maxdur i1) from rfl]
    rw [inner_fold_eq n mindur r_min direction bt bf ppb i1 (innerLen nbins maxdur i1) i1 st
      le_rfl]
    rw [List.filter_map, List.foldl_map]
    exact ih _

/-- `calc_sr_max` coincides with its specification-shaped form. -/
theorem calc_sr_max_eq_spec (n : ℤ) (nbins : ℕ) (mindur maxdur r_min direction : ℤ)
    (binTime binFlx : List FP) (ppb : List ℤ) :
    calc_sr_max n nbins mindur maxdur r_min direction binTime binFlx ppb
      = calc_sr_max_spec n nbins mindur maxdur r_min direction binTime binFlx ppb := by
  unfold calc_sr_max calc_sr_max_spec contribs allPairs
  exact calc_fold_eq n mindur r_min direction binTime binFlx ppb nbins maxdur
    (List.range nbins) srInit

/-- The inner loop visits exactly the indices `i1 ≤ i2 ≤ min(i1 + maxdur, nbins - 1)`. -/
theorem mem_innerIdx (nbins : ℕ) (maxdur : ℤ) (i1 i2 : ℕ) :
    i2 ∈ innerIdx nbins maxdur i1 ↔
      i1 ≤ i2 ∧ (i2 : ℤ) ≤ min ((i1 : ℤ) + maxdur) ((nbins : ℤ) - 1) := by
  unfold innerIdx innerLen
  rw [List.mem_range'_1]
  omega

/-- The visited pairs are exactly the start bins below `nbins` with their
inner indices. -/
theorem mem_allPairs (nbins : ℕ) (maxdur : ℤ) (p : ℕ × ℕ) :
    p ∈ allPairs nbins maxdur ↔ p.1 < nbins ∧ p.2 ∈ innerIdx nbins maxdur p.1 := by
  unfold allPairs
  rw [List.mem_flatMap]
  constructor
  · rintro ⟨a, ha, hp⟩
    rcases List.mem_map.mp hp with ⟨i2, hi2, rfl⟩
    exact ⟨List.mem_range.mp ha, hi2⟩
  · rintro ⟨h1, h2⟩
    exact ⟨p.1, List.mem_range.mpr h1, List.mem_map.mpr ⟨p.2, h2, rfl⟩⟩

/-- Membership in the contribution list. -/
theorem mem_contribs (n : ℤ) (nbins : ℕ) (mindur maxdur r_min direction : ℤ)
    (binFlx : List FP) (ppb : List ℤ) (p : ℕ × ℕ) :
    p ∈ contribs n nbins mindur maxdur r_min direction binFlx ppb ↔
      p ∈ allPairs nbins maxdur
        ∧ admissibleB n mindur r_min direction binFlx ppb p.1 p.2 = true := by
  unfold contribs
  exact List.mem_filter

/-- The four conditions of the admissibility test, spelled out. -/
theorem admissibleB_iff (n mindur r_min direction : ℤ) (binFlx : List FP) (ppb : List ℤ)
    (i1 i2 : ℕ) :
    admissibleB n mindur r_min direction binFlx ppb i1 i2 = true ↔
      (mindur ≤ (i2 : ℤ) - (i1 : ℤ) ∧ r_min ≤ rAcc ppb i1 i2
        ∧ FP.le (FP.fin 0) (FP.mul (FP.fin (direction : ℚ)) (sAcc binFlx i1 i2)) = true
        ∧ rAcc ppb i1 i2 < n) := by
  unfold admissibleB guardB
  simp [Bool.and_eq_true, and_assoc]

/-- C1.  In the signal-residue search, the double loop of `calc_sr_max` is
exactly the fold, over the admissible pairs in traversal order, of the
contribution `SR = s^2 / (r * (n - r))` (first conjunct, where
`calc_sr_max_spec` folds `srUpdate` with `srOf` over `contribs`); for every
start bin `i1` the inner accumulation visits `i2` from `i1` up to
`min(i1 + maxDurBins, nbins - 1)` (second conjunct); and a visited pair
`(i1, i2)` contributes if and only if the four conditions
`i2 - i1 ≥ minDurBins`, `r ≥ rMin`, `direction * s ≥ 0` and `r < n` hold,
where `s` sums `binFlux[i1..i2]` and `r` sums `pointsPerBin[i1..i2]`
(third conjunct). -/
theorem spec_c1 (n : ℤ) (nbins : ℕ) (mindur maxdur r_min direction : ℤ)
    (binTime binFlx : List FP) (ppb : List ℤ) :
    calc_sr_max n nbins mindur maxdur r_min direction binTime binFlx ppb
      = calc_sr_max_spec n nbins mindur maxdur r_min direction binTime binFlx ppb
    ∧ (∀ i1 i2 : ℕ, i2 ∈ innerIdx nbins maxdur i1 ↔
        i1 ≤ i2 ∧ (i2 : ℤ) ≤ min ((i1 : ℤ) + maxdur) ((nbins : ℤ) - 1))
    ∧ (∀ i1 i2 : ℕ,
        (i1, i2) ∈ contribs n nbins mindur maxdur r_min direction binFlx ppb ↔
          (i1 < nbins ∧ i2 ∈ innerIdx nbins maxdur i1
            ∧ mindur ≤ (i2 : ℤ) - (i1 : ℤ)
            ∧ r_min ≤ rAcc ppb i1 i2
            ∧ FP.le (FP.fin 0) (FP.mul (FP.fin (direction : ℚ)) (sAcc binFlx i1 i2)) = true
            ∧ rAcc ppb i1 i2 < n)) := by
  refine ⟨calc_sr_max_eq_spec n nbins mindur maxdur r_min direction binTime binFlx ppb,
    fun i1 i2 => mem_innerIdx nbins maxdur i1 i2, fun i1 i2 => ?_⟩
  rw [mem_contribs, mem_allPairs, admissibleB_iff]
  tauto

/-! ### The running best is the first maximum of the contributions -/

theorem FP.lt_of_le_of_lt {x y z : FP} (h1 : FP.le x y = true) (h2 : FP.lt y z = true) :
    FP.lt x z = true := by
  cases x <;> cases y <;> cases z <;> simp_all [FP.le, FP.lt, FP.gt] <;> linarith

theorem FP.lt_trans {x y z : FP} (h1 : FP.lt x y = true) (h2 : FP.lt y z = true) :
    FP.lt x z = true := by
  cases x <;> cases y <;> cases z <;> simp_all [FP.lt, FP.gt] <;> linarith

theorem FP.le_of_lt {x y : FP} (h : FP.lt x y = true) : FP.le x y = true := by
  cases x <;> cases y <;> simp_all [FP.le, FP.lt, FP.gt] <;> linarith

theorem FP.le_refl_of_isFin {x : FP} (h : x.isFin = true) : FP.le x x = true := by
  cases x <;> simp_all [FP.le, FP.isFin]

theorem FP.le_of_gt_false {x y : FP} (hx : x.isFin = true) (hy : y.isFin = true)
    (h : FP.gt x y = false) : FP.le x y = true := by
  cases x <;> cases y <;> simp_all [FP.le, FP.gt, FP.isFin] <;> linarith

theorem FP.lt_of_gt {x y : FP} (h : FP.gt x y = true) : FP.lt y x = true := h

/-- Folding the contributions into the running best, starting from a rendered
incumbent, renders the first-maximum pick, provided every signal residue in
sight is finite (so the `np.isnan(best_SR)` escape never fires after the
first contribution). -/
theorem fold_spec_render (n direction : ℤ) (bt bf : List FP) (ppb : List ℤ) :
    ∀ (l : List (ℕ × ℕ)) (acc : Option (ℕ × ℕ)),
      (∀ p ∈ l, (srOf n bf ppb p.1 p.2).isFin = true) →
      (∀ b, acc = some b → (srOf n bf ppb b.1 b.2).isFin = true) →
      l.foldl (specStep n direction bt bf ppb) (renderBest n direction bt bf ppb acc)
        = renderBest n direction bt bf ppb (l.foldl (pickStep n bf ppb) acc) := by
  intro l
  induction l with
  | nil => intro acc _ _; rfl
  | cons p l ih =>
    intro acc hl hacc
    simp only [List.foldl_cons]
    have hstep : specStep n direction bt bf ppb (renderBest n direction bt bf ppb acc) p
        = renderBest n direction bt bf ppb (pickStep n bf ppb acc p) := by
      cases acc with
      | none =>
        unfold specStep srUpdate renderBest pickStep srInit
        simp [FP.isFin]
      | some b =>
        have hb := hacc b rfl
        by_cases hg : FP.gt (srOf n bf ppb p.1 p.2) (srOf n bf ppb b.1 b.2) = true
        · unfold specStep srUpdate renderBest pickStep
          simp [hg, hb]
        · unfold specStep srUpdate renderBest pickStep
          simp [hg, hb]
    rw [hstep]
    refine ih (pickStep n bf ppb acc p) (fun q hq => hl q (by simp [hq])) ?_
    intro b' hb'
    cases acc with
    | none =>
      simp only [pickStep] at hb'
      cases hb'
      exact hl p (by simp)
    | some b =>
      simp only [pickStep] at hb'
      by_cases hg : FP.gt (srOf n bf ppb p.1 p.2) (srOf n bf ppb b.1 b.2) = true
      · rw [if_pos hg] at hb'
        cases hb'
        exact hl p (by simp)
      · rw [if_neg hg] at hb'
        cases hb'
        exact hacc _ rfl

/-- Folding `pickStep` from an incumbent `b` yields either the incumbent
(every later residue is `≤` it) or an element of the list that strictly
beats the incumbent, everything before it, and is `≥` everything after it. -/
theorem pickStep_fold_cases (n : ℤ) (bf : List FP) (ppb : List ℤ) :
    ∀ (l : List (ℕ × ℕ)) (b c : ℕ × ℕ),
      (∀ p ∈ l, (srOf n bf ppb p.1 p.2).isFin = true) →
      (srOf n bf ppb b.1 b.2).isFin = true →
      l.foldl (pickStep n bf ppb) (some b) = some c →
      ((c = b ∧ ∀ p ∈ l, FP.le (srOf n bf ppb p.1 p.2) (srOf n bf ppb c.1 c.2) = true)
        ∨ (∃ l₁ l₂, l = l₁ ++ c :: l₂
            ∧ FP.lt (srOf n bf ppb b.1 b.2) (srOf n bf ppb c.1 c.2) = true
            ∧ (∀ p ∈ l₁, FP.lt (srOf n bf ppb p.1 p.2) (srOf n bf ppb c.1 c.2) = true)
            ∧ (∀ p ∈ l₂, FP.le (srOf n bf ppb p.1 p.2) (srOf n bf ppb c.1 c.2) = true))) := by
  intro l
  induction l with
  | nil =>
    intro b c _ _ h
    left
    refine ⟨(Option.some.inj h).symm, by simp⟩
  | cons p l ih =>
    intro b c hl hb h
    simp only [List.foldl_cons, pickStep] at h
    have hp : (srOf n bf ppb p.1 p.2).isFin = true := hl p (by simp)
    have hltail : ∀ q ∈ l, (srOf n bf ppb q.1 q.2).isFin = true :=
      fun q hq => hl q (by simp [hq])
    by_cases hg : FP.gt (srOf n bf ppb p.1 p.2) (srOf n bf ppb b.1 b.2) = true
    · rw [if_pos hg] at h
      rcases ih p c hltail hp h with ⟨rfl, hall⟩ | ⟨l₁, l₂, heq, hbc, h₁, h₂⟩
      · right
        exact ⟨[], l, by simp, FP.lt_of_gt hg, by simp, hall⟩
      · right
        refine ⟨p :: l₁, l₂, by simp [heq], FP.lt_trans (FP.lt_of_gt hg) hbc, ?_, h₂⟩
        intro q hq
        rcases List.mem_cons.mp hq with rfl | hq'
        · exact hbc
        · exact h₁ q hq'
    · rw [if_neg hg] at h
      have hpb : FP.le (srOf n bf ppb p.1 p.2) (srOf n bf ppb b.1 b.2) = true :=
        FP.le_of_gt_false hp hb (by simpa using hg)
      rcases ih b c hltail hb h with ⟨rfl, hall⟩ | ⟨l₁, l₂, heq, hbc, h₁, h₂⟩
      · left
        refine ⟨rfl, ?_⟩
        intro q hq
        rcases List.mem_cons.mp hq with rfl | hq'
        · exact hpb
        · exact hall q hq'
      · right
        refine ⟨p :: l₁, l₂, by simp [heq], hbc, ?_, h₂⟩
        intro q hq
        rcases List.mem_cons.mp hq with rfl | hq'
        · exact FP.lt_of_le_of_lt hpb hbc
        · exact h₁ q hq'

/-- `pickBest` picks the first pair attaining the maximal signal residue:
everything strictly before it in traversal order has a strictly smaller
residue, and nothing has a larger one. -/
theorem pickBest_first_max (n : ℤ) (bf : List FP) (ppb : List ℤ) (l : List (ℕ × ℕ))
    (hl : ∀ p ∈ l, (srOf n bf ppb p.1 p.2).isFin = true) (c : ℕ × ℕ)
    (h : pickBest n bf ppb l = some c) :
    ∃ l₁ l₂, l = l₁ ++ c :: l₂
      ∧ (∀ p ∈ l₁, FP.lt (srOf n bf ppb p.1 p.2) (srOf n bf ppb c.1 c.2) = true)
      ∧ (∀ p ∈ l₂, FP.le (srOf n bf ppb p.1 p.2) (srOf n bf ppb c.1 c.2) = true) := by
  cases l with
  | nil => cases h
  | cons p l =>
    have hp : (srOf n bf ppb p.1 p.2).isFin = true := hl p (by simp)
    have hltail : ∀ q ∈ l, (srOf n bf ppb q.1 q.2).isFin = true :=
      fun q hq => hl q (by simp [hq])
    unfold pickBest at h
    simp only [List.foldl_cons, pickStep] at h
    rcases pickStep_fold_cases n bf ppb l p c hltail hp h with ⟨rfl, hall⟩ |
      ⟨l₁, l₂, heq, hbc, h₁, h₂⟩
    · exact ⟨[], l, rfl, by simp, hall⟩
    · refine ⟨p :: l₁, l₂, by simp [heq], ?_, h₂⟩
      intro q hq
      rcases List.mem_cons.mp hq with rfl | hq'
      · exact hbc
      · exact h₁ q hq'

theorem FP.mul_isFin {a b : FP} (ha : a.isFin = true) (hb : b.isFin = true) :
    (FP.mul a b).isFin = true := by
  cases a <;> cases b <;> simp_all [FP.mul, FP.isFin]

/-- When `r_min ≥ 1` (as the pipeline guarantees, `rMin = ceil` of a positive
quantity), every contribution's signal residue is finite: the polarity guard
forces `s` finite and `1 ≤ r < n` makes the denominator a positive integer. -/
theorem contribs_sr_isFin (n : ℤ) (nbins : ℕ) (mindur maxdur r_min direction : ℤ)
    (bf : List FP) (ppb : List ℤ) (hr : 1 ≤ r_min) :
    ∀ p ∈ contribs n nbins mindur maxdur r_min direction bf ppb,
      (srOf n bf ppb p.1 p.2).isFin = true := by
  intro p hp
  obtain ⟨-, hadm⟩ := (mem_contribs n nbins mindur maxdur r_min direction bf ppb p).mp hp
  obtain ⟨h1, h2, h3, h4⟩ :=
    (admissibleB_iff n mindur r_min direction bf ppb p.1 p.2).mp hadm
  have hs : (sAcc bf p.1 p.2).isFin = true :=
    (FP.mul_isFin_inv (FP.le_isFin h3).2).2
  have hd : ((rAcc ppb p.1 p.2 * (n - rAcc ppb p.1 p.2) : ℤ) : ℚ) ≠ 0 := by
    have h5 : 1 ≤ rAcc ppb p.1 p.2 := le_trans hr h2
    have h6 : rAcc ppb p.1 p.2 * (n - rAcc ppb p.1 p.2) ≠ 0 := by
      have : 0 < rAcc ppb p.1 p.2 * (n - rAcc ppb p.1 p.2) :=
        mul_pos (by omega) (by omega)
      omega
    exact_mod_cast h6
  unfold srOf srFormula
  exact FP.div_fin_isFin (FP.mul_isFin hs hs) hd

/-- C5.  With `rMin ≥ 1`, the search returns exactly the candidate rendered
from the winning admissible pair: `pickBest` keeps a challenger only when its
signal residue is strictly larger, so the result is the pair with the
strictly largest finite residue, ties keeping the earliest-found pair
(traversal order is `i1` ascending, then `i2` ascending); the recorded
fields are duration `binTimes[i2] - binTimes[i1]`, depth
`extreme(binFlux[i1..i2], direction)` and midtime
`(binTimes[i2] + binTimes[i1]) / 2` (see `renderBest`).  The second conjunct
states the first-maximum property of the winner within the traversal-ordered
contribution list. -/
theorem spec_c5 (n : ℤ) (nbins : ℕ) (mindur maxdur r_min direction : ℤ)
    (binTime binFlx : List FP) (ppb : List ℤ) (hr : 1 ≤ r_min) :
    calc_sr_max n nbins mindur maxdur r_min direction binTime binFlx ppb
      = renderBest n direction binTime binFlx ppb
          (pickBest n binFlx ppb (contribs n nbins mindur maxdur r_min direction binFlx ppb))
    ∧ ∀ c, pickBest n binFlx ppb (contribs n nbins mindur maxdur r_min direction binFlx ppb)
          = some c →
        ∃ l₁ l₂, contribs n nbins mindur maxdur r_min direction binFlx ppb = l₁ ++ c :: l₂
          ∧ (∀ p ∈ l₁, FP.lt (srOf n binFlx ppb p.1 p.2) (srOf n binFlx ppb c.1 c.2) = true)
          ∧ (∀ p ∈ l₂, FP.le (srOf n binFlx ppb p.1 p.2) (srOf n binFlx ppb c.1 c.2) = true) := by
  have hfin := contribs_sr_isFin n nbins mindur maxdur r_min direction binFlx ppb hr
  constructor
  · rw [calc_sr_max_eq_spec]
    unfold calc_sr_max_spec pickBest
    rw [show srInit = renderBest n direction binTime binFlx ppb none from rfl]
    exact fold_spec_render n direction binTime binFlx ppb _ none hfin
      (by intro b h; cases h)
  · intro c hc
    exact pickBest_first_max n binFlx ppb _ hfin c hc

/-- Witness for C5 at a concrete instance: two bins of one point each,
`r_min = 1`; the winner is the pair `(1, 1)` with residue 4. -/
theorem spec_c5_witness :
    calc_sr_max 2 2 0 1 1 0 [FP.fin 0, FP.fin 1] [FP.fin 1, FP.fin 2] [1, 1]
      = renderBest 2 0 [FP.fin 0, FP.fin 1] [FP.fin 1, FP.fin 2] [1, 1]
          (pickBest 2 [FP.fin 1, FP.fin 2] [1, 1]
            (contribs 2 2 0 1 1 0 [FP.fin 1, FP.fin 2] [1, 1])) :=
  (spec_c5 2 2 0 1 1 0 [FP.fin 0, FP.fin 1] [FP.fin 1, FP.fin 2] [1, 1] (by norm_num)).1

/-- C4 evaluation: the duration-to-bins conversion, called with a mode other
than "min" or "max", silently returns the value 0 instead of signalling an
invalid-argument error (source lines 35-37; the source itself notes
"Need to add proper error handler here"). -/
theorem spec_c4_eval : convert_duration_to_bins 1 10 1 "typo" = 0 := rfl

/-- C7.  For any duration, any `nbins ≥ 1` and any `segmentSize > 0`, the
conversion returns `max(floor(d*nbins/seg), 1)` in "min" mode and
`max(1, min(ceil(d*nbins/seg), nbins))` in "max" mode; consequently the
"min" result is ≥ 1 and the "max" result lies in `[1, nbins]`. -/
theorem spec_c7 (d seg : ℚ) (nbins : ℤ) (h1 : 1 ≤ nbins) (h2 : 0 < seg) :
    convert_duration_to_bins d nbins seg "min" = max ⌊d * (nbins : ℚ) / seg⌋ 1
    ∧ convert_duration_to_bins d nbins seg "max"
        = max 1 (min ⌈d * (nbins : ℚ) / seg⌉ nbins)
    ∧ 1 ≤ convert_duration_to_bins d nbins seg "min"
    ∧ 1 ≤ convert_duration_to_bins d nbins seg "max"
    ∧ convert_duration_to_bins d nbins seg "max" ≤ nbins := by
  refine ⟨rfl, rfl, ?_, ?_, ?_⟩
  · exact le_max_right _ _
  · exact le_max_left _ _
  · exact max_le h1 (min_le_right _ _)

/-- Witness for C7 at `d = 5/2`, `seg = 2`, `nbins = 3`. -/
theorem spec_c7_witness :
    1 ≤ convert_duration_to_bins (5/2) 3 2 "min"
    ∧ 1 ≤ convert_duration_to_bins (5/2) 3 2 "max"
    ∧ convert_duration_to_bins (5/2) 3 2 "max" ≤ 3 :=
  ⟨(spec_c7 (5/2) 2 3 (by decide) (by decide)).2.2.1,
   (spec_c7 (5/2) 2 3 (by decide) (by decide)).2.2.2.1,
   (spec_c7 (5/2) 2 3 (by decide) (by decide)).2.2.2.2⟩

/-- Element `k` of the map of a function over `range' s len`, with default. -/
theorem map_range'_getD {α : Type} (f : ℕ → α) (d : α) :
    ∀ (len s k : ℕ), ((List.range' s len).map f).getD k d = if k < len then f (s + k) else d := by
  intro len
  induction len with
  | zero => intro s k; simp
  | succ len ih =>
    intro s k
    rw [List.range'_succ]
    cases k with
    | zero => simp
    | succ k =>
      simp only [List.map_cons, List.getD_cons_succ]
      rw [ih (s + 1) k]
      by_cases hk : k < len
      · rw [if_pos hk, if_pos (by omega)]
        congr 1
        omega
      · rw [if_neg hk, if_neg (by omega)]

/-- C9.  First conjunct (the Binner): a bin with no member samples has a
NaN mean flux and a point count of 0.  Second conjunct (the search): a bin
range `[i1, i2]` containing a non-finite per-bin flux can never contribute —
the cumulative sum `s` is poisoned to NaN, the polarity test
`direction * s >= 0` is false on NaN, so the pair is inadmissible and is
never in the contribution list from which the winner is drawn. -/
theorem spec_c9 :
    (∀ (pts : List (ℚ × ℚ)) (edges : List ℚ) (nbins i : ℕ),
        1 ≤ i → i ≤ nbins → binMembers pts edges i = [] →
        (binnedFluxes pts edges nbins).getD (i - 1) FP.nan = FP.nan
          ∧ (ppbOf pts edges nbins).getD (i - 1) 0 = 0)
    ∧ (∀ (n mindur r_min direction : ℤ) (bf : List FP) (ppb : List ℤ) (i1 i2 k : ℕ),
        i1 ≤ k → k ≤ i2 → (bf.getD k FP.nan).isFin = false →
        admissibleB n mindur r_min direction bf ppb i1 i2 = false
          ∧ ∀ (nbins : ℕ) (maxdur : ℤ),
              (i1, i2) ∉ contribs n nbins mindur maxdur r_min direction bf ppb) := by
  constructor
  · intro pts edges nbins i hi1 hi2 hmem
    unfold binnedFluxes ppbOf
    rw [map_range'_getD, map_range'_getD]
    rw [if_pos (by omega), if_pos (by omega)]
    rw [show 1 + (i - 1) = i from by omega, hmem]
    exact ⟨rfl, rfl⟩
  · intro n mindur r_min direction bf ppb i1 i2 k hk1 hk2 hnan
    have hadm : admissibleB n mindur r_min direction bf ppb i1 i2 = false := by
      rw [Bool.eq_false_iff]
      intro hadm
      obtain ⟨-, -, h3, -⟩ :=
        (admissibleB_iff n mindur r_min direction bf ppb i1 i2).mp hadm
      have hs : (sAcc bf i1 i2).isFin = true :=
        (FP.mul_isFin_inv (FP.le_isFin h3).2).2
      unfold sAcc sAccE at hs
      obtain ⟨-, hall⟩ := foldl_add_isFin bf _ _ hs
      have hkmem : k ∈ List.range' i1 (i2 + 1 - i1) :=
        List.mem_range'_1.mpr (by omega)
      rw [hall k hkmem] at hnan
      cases hnan
    refine ⟨hadm, ?_⟩
    intro nbins maxdur hmem
    have := ((mem_contribs n nbins mindur maxdur r_min direction bf ppb (i1, i2)).mp hmem).2
    rw [hadm] at this
    cases this

/-- Witness for C9: an empty bin in a one-bin binning yields NaN flux and
count 0, and a range whose bin 0 has NaN flux is inadmissible and absent
from the contribution list. -/
theorem spec_c9_witness :
    ((binnedFluxes [] [0, 1] 1).getD 0 FP.nan = FP.nan
      ∧ (ppbOf [] [0, 1] 1).getD 0 0 = 0)
    ∧ (admissibleB 1 0 0 0 [FP.nan] [1] 0 0 = false
        ∧ (0, 0) ∉ contribs 1 1 0 0 0 0 [FP.nan] [1]) := by
  refine ⟨spec_c9.1 [] [0, 1] 1 1 (by decide) (by decide) rfl, ?_⟩
  obtain ⟨h1, h2⟩ := spec_c9.2 1 0 0 0 [FP.nan] [1] 0 0 0 (le_refl 0) (le_refl 0) rfl
  exact ⟨h1, h2 1 0⟩

/-! ### A finite best signal residue forces the other three fields finite -/

theorem extreme_isFin {l : List FP} (direction : ℤ) (hne : l ≠ [])
    (hall : ∀ x ∈ l, x.isFin = true) : (extreme l direction).isFin = true := by
  have hany : l.any (fun x => !x.isFin) = false := by
    rw [List.any_eq_false]
    intro x hx
    rw [hall x hx]
    simp
  cases l with
  | nil => cases hne rfl
  | cons x xs =>
    have hx := hall x (by simp)
    rcases FP.isFin_iff_exists.mp hx with ⟨q, rfl⟩
    simp only [extreme, hany, Bool.false_eq_true, if_false, List.filterMap_cons]
    simp [FP.isFin]

theorem drop_take_getD (l : List FP) :
    ∀ (m i : ℕ), i + m ≤ l.length →
      (l.drop i).take m = (List.range' i m).map (fun k => l.getD k FP.nan) := by
  intro m
  induction m with
  | zero => simp
  | succ m ih =>
    intro i h
    have hi : i < l.length := by omega
    rw [List.drop_eq_getElem_cons hi, List.take_succ_cons, List.range'_succ, List.map_cons]
    congr 1
    · exact (List.getD_eq_getElem l FP.nan hi).symm
    · exact ih (i + 1) (by omega)

/-- One admissible contribution preserves the invariant "a finite best SR
comes with finite duration, depth and midtime", provided a finite per-bin
flux guarantees a finite per-bin time (true of the pipeline's binning, where
both are means over the same members). -/
theorem specStep_preserves_fin (n mindur r_min direction : ℤ) (bt bf : List FP)
    (ppb : List ℤ)
    (hbt : ∀ k, (bf.getD k FP.nan).isFin = true → (bt.getD k FP.nan).isFin = true)
    (p : ℕ × ℕ) (hp : p.1 ≤ p.2)
    (hadm : admissibleB n mindur r_min direction bf ppb p.1 p.2 = true)
    (st : SRResult)
    (hP : st.best_SR.isFin = true →
      st.thisDuration.isFin = true ∧ st.thisDepth.isFin = true
        ∧ st.thisMidTime.isFin = true) :
    (specStep n direction bt bf ppb st p).best_SR.isFin = true →
      (specStep n direction bt bf ppb st p).thisDuration.isFin = true
        ∧ (specStep n direction bt bf ppb st p).thisDepth.isFin = true
        ∧ (specStep n direction bt bf ppb st p).thisMidTime.isFin = true := by
  unfold specStep srUpdate
  by_cases hc : (FP.gt (srOf n bf ppb p.1 p.2) st.best_SR || !st.best_SR.isFin) = true
  · rw [if_pos hc]
    intro hfin
    obtain ⟨-, -, h3, -⟩ :=
      (admissibleB_iff n mindur r_min direction bf ppb p.1 p.2).mp hadm
    have hs : (sAcc bf p.1 p.2).isFin = true :=
      (FP.mul_isFin_inv (FP.le_isFin h3).2).2
    have hs' := hs
    unfold sAcc sAccE at hs'
    obtain ⟨-, hall⟩ := foldl_add_isFin bf _ _ hs'
    have hi2 : (bf.getD p.2 FP.nan).isFin = true :=
      hall p.2 (List.mem_range'_1.mpr (by omega))
    have hi1 : (bf.getD p.1 FP.nan).isFin = true :=
      hall p.1 (List.mem_range'_1.mpr (by omega))
    have hlen : p.2 < bf.length := getD_isFin_lt_length hi2
    have hslice : (bf.drop p.1).take (p.2 + 1 - p.1)
        = (List.range' p.1 (p.2 + 1 - p.1)).map (fun k => bf.getD k FP.nan) :=
      drop_take_getD bf _ _ (by omega)
    refine ⟨FP.sub_isFin (hbt _ hi2) (hbt _ hi1), ?_, ?_⟩
    · rw [hslice]
      apply extreme_isFin
      · have hlr : ((List.range' p.1 (p.2 + 1 - p.1)).map
            (fun k => bf.getD k FP.nan)).length = p.2 + 1 - p.1 := by
          simp
        intro hnil
        rw [hnil] at hlr
        simp at hlr
        omega
      · intro x hx
        rcases List.mem_map.mp hx with ⟨k, hk, rfl⟩
        exact hall k hk
    · exact FP.div_fin_isFin (FP.add_isFin (hbt _ hi2) (hbt _ hi1)) (by norm_num)
  · rw [if_neg hc]
    exact hP

/-- The invariant holds of the whole contribution fold. -/
theorem spec_fold_fields_fin (n mindur r_min direction : ℤ) (bt bf : List FP)
    (ppb : List ℤ)
    (hbt : ∀ k, (bf.getD k FP.nan).isFin = true → (bt.getD k FP.nan).isFin = true) :
    ∀ (l : List (ℕ × ℕ)) (st : SRResult),
      (∀ p ∈ l, p.1 ≤ p.2 ∧ admissibleB n mindur r_min direction bf ppb p.1 p.2 = true) →
      (st.best_SR.isFin = true →
        st.thisDuration.isFin = true ∧ st.thisDepth.isFin = true
          ∧ st.thisMidTime.isFin = true) →
      ((l.foldl (specStep n direction bt bf ppb) st).best_SR.isFin = true →
        (l.foldl (specStep n direction bt bf ppb) st).thisDuration.isFin = true
          ∧ (l.foldl (specStep n direction bt bf ppb) st).thisDepth.isFin = true
          ∧ (l.foldl (specStep n direction bt bf ppb) st).thisMidTime.isFin = true) := by
  intro l
  induction l with
  | nil => intro st _ hP; exact hP
  | cons p l ih =>
    intro st hl hP
    simp only [List.foldl_cons]
    obtain ⟨hp, hadm⟩ := hl p (by simp)
    exact ih _ (fun q hq => hl q (by simp [hq]))
      (specStep_preserves_fin n mindur r_min direction bt bf ppb hbt p hp hadm st hP)

/-- If `calc_sr_max` reports a finite best signal residue, its duration,
depth and midtime are finite too. -/
theorem calc_fields_isFin (n : ℤ) (nbins : ℕ) (mindur maxdur r_min direction : ℤ)
    (bt bf : List FP) (ppb : List ℤ)
    (hbt : ∀ k, (bf.getD k FP.nan).isFin = true → (bt.getD k FP.nan).isFin = true)
    (h : (calc_sr_max n nbins mindur maxdur r_min direction bt bf ppb).best_SR.isFin = true) :
    (calc_sr_max n nbins mindur maxdur r_min direction bt bf ppb).thisDuration.isFin = true
    ∧ (calc_sr_max n nbins mindur maxdur r_min direction bt bf ppb).thisDepth.isFin = true
    ∧ (calc_sr_max n nbins mindur maxdur r_min direction bt bf ppb).thisMidTime.isFin = true := by
  rw [calc_sr_max_eq_spec] at h ⊢
  unfold calc_sr_max_spec at h ⊢
  refine spec_fold_fields_fin n mindur r_min direction bt bf ppb hbt _ srInit ?_ ?_ h
  · intro p hp
    obtain ⟨hall, hadm⟩ :=
      (mem_contribs n nbins mindur maxdur r_min direction bf ppb p).mp hp
    obtain ⟨-, hinner⟩ := (mem_allPairs nbins maxdur p).mp hall
    exact ⟨((mem_innerIdx nbins maxdur p.1 p.2).mp hinner).1, hadm⟩
  · intro hbad
    simp [srInit, FP.isFin] at hbad

/-- In the pipeline's binning, a finite mean flux for bin `k` means the bin
has members, so its mean time is finite too. -/
theorem binned_hbt (pts : List (ℚ × ℚ)) (edges : List ℚ) (nbins : ℕ) :
    ∀ k, ((binnedFluxes pts edges nbins).getD k FP.nan).isFin = true →
      ((binnedTimes pts edges nbins).getD k FP.nan).isFin = true := by
  intro k h
  unfold binnedFluxes at h
  unfold binnedTimes
  rw [map_range'_getD] at h
  rw [map_range'_getD]
  by_cases hk : k < nbins
  · rw [if_pos hk] at h
    rw [if_pos hk]
    cases hmem : binMembers pts edges (1 + k) with
    | nil => rw [hmem] at h; simp [listMeanFP, FP.isFin] at h
    | cons a l => simp [listMeanFP, FP.isFin]
  · rw [if_neg hk] at h
    simp [FP.isFin] at h

/-- A finite best signal residue of a segment's search forces the other
three fields finite (the binned lists satisfy the flux-to-time condition). -/
theorem segCalc_fields (n_bins : ℕ) (seg : ℚ) (mindur maxdur r_min direction : ℤ)
    (pts : List (ℚ × ℚ)) (q : ℕ)
    (h : (segCalc n_bins seg mindur maxdur r_min direction pts q).best_SR.isFin = true) :
    (segCalc n_bins seg mindur maxdur r_min direction pts q).thisDuration.isFin = true
    ∧ (segCalc n_bins seg mindur maxdur r_min direction pts q).thisDepth.isFin = true
    ∧ (segCalc n_bins seg mindur maxdur r_min direction pts q).thisMidTime.isFin = true := by
  unfold segCalc at h ⊢
  exact calc_fields_isFin _ _ _ _ _ _ _ _ _ (binned_hbt _ _ _) h

/-- A segment with no member samples searches zero bins and returns the
all-NaN record. -/
theorem segCalc_empty (n_bins : ℕ) (seg : ℚ) (mindur maxdur r_min direction : ℤ)
    (pts : List (ℚ × ℚ)) (q : ℕ) (hmem : segMembers pts seg q = []) :
    segCalc n_bins seg mindur maxdur r_min direction pts q = srInit := by
  unfold segCalc
  dsimp only
  rw [hmem]
  simp only [List.length_nil]
  by_cases hn : 0 < n_bins
  · rw [if_pos hn]
    rfl
  · rw [if_neg hn]
    have : n_bins = 0 := by omega
    subst this
    rfl

/-- Recording a candidate appends one value to each output array; the four
appended values are all finite or all NaN; recording the all-NaN result
appends the all-NaN record. -/
theorem recordCandidate_spec (out : BLSOutput) (res : SRResult)
    (hfields : res.best_SR.isFin = true →
      res.thisDuration.isFin = true ∧ res.thisDepth.isFin = true
        ∧ res.thisMidTime.isFin = true) :
    ∃ v : SRResult,
      recordCandidate out res
        = ⟨out.srsq ++ [v.best_SR], out.duration ++ [v.thisDuration],
           out.depth ++ [v.thisDepth], out.midtime ++ [v.thisMidTime]⟩
      ∧ ((v.best_SR.isFin = true ∧ v.thisDuration.isFin = true
            ∧ v.thisDepth.isFin = true ∧ v.thisMidTime.isFin = true)
          ∨ (v.best_SR = FP.nan ∧ v.thisDuration = FP.nan ∧ v.thisDepth = FP.nan
            ∧ v.thisMidTime = FP.nan))
      ∧ (res = srInit → v = srInit) := by
  by_cases h : res.best_SR.isFin = true
  · refine ⟨res, ?_, Or.inl ⟨h, hfields h⟩, fun he => he⟩
    unfold recordCandidate
    rw [if_pos h]
  · refine ⟨srInit, ?_, Or.inr ⟨rfl, rfl, rfl, rfl⟩, fun _ => rfl⟩
    unfold recordCandidate
    rw [if_neg h]
    rfl

/-- One segment iteration appends exactly one value to each of the four
output arrays; the four appended values are all finite or all NaN; and an
empty segment appends the all-NaN record. -/
theorem segStep_spec (n_bins : ℕ) (seg mind maxd : ℚ) (r_min direction : ℤ)
    (pts : List (ℚ × ℚ)) (acc : SegAcc) (q : ℕ) :
    ∃ v : SRResult,
      (segStep n_bins seg mind maxd r_min direction pts acc q).out
        = ⟨acc.out.srsq ++ [v.best_SR], acc.out.duration ++ [v.thisDuration],
           acc.out.depth ++ [v.thisDepth], acc.out.midtime ++ [v.thisMidTime]⟩
      ∧ ((v.best_SR.isFin = true ∧ v.thisDuration.isFin = true
            ∧ v.thisDepth.isFin = true ∧ v.thisMidTime.isFin = true)
          ∨ (v.best_SR = FP.nan ∧ v.thisDuration = FP.nan ∧ v.thisDepth = FP.nan
            ∧ v.thisMidTime = FP.nan))
      ∧ (segMembers pts seg q = [] → v = srInit) := by
  obtain ⟨v, hv1, hv2, hv3⟩ := recordCandidate_spec acc.out
    (segCalc n_bins seg
      (if (segMembers pts seg q).length < n_bins then
        convert_duration_to_bins mind (((segMembers pts seg q).length : ℕ) : ℤ) seg "min"
      else acc.mindur)
      (if (segMembers pts seg q).length < n_bins then
        convert_duration_to_bins maxd (((segMembers pts seg q).length : ℕ) : ℤ) seg "max"
      else acc.maxdur)
      r_min direction pts q)
    (segCalc_fields n_bins seg _ _ r_min direction pts q)
  exact ⟨v, hv1, hv2, fun hmem => hv3 (segCalc_empty _ _ _ _ _ _ _ _ hmem)⟩

theorem getD_snoc_self (l : List FP) (x : FP) : (l ++ [x]).getD l.length FP.nan = x := by
  rw [List.getD_append_right _ _ _ _ (le_refl _)]
  simp

theorem getD_snoc_eq (l : List FP) (x : FP) (j : ℕ) (h : l.length = j) :
    (l ++ [x]).getD j FP.nan = x := by
  subst h
  exact getD_snoc_self l x

theorem getD_snoc_beyond (l : List FP) (x : FP) (j : ℕ) (h : l.length < j) :
    (l ++ [x]).getD j FP.nan = FP.nan := by
  rw [List.getD_append_right _ _ _ _ (by omega)]
  cases hm : j - l.length with
  | zero => omega
  | succ k => simp

/-- The segment fold grows each of the four output arrays by one entry per
segment. -/
theorem segFold_lengths (n_bins : ℕ) (seg mind maxd : ℚ) (r_min direction : ℤ)
    (pts : List (ℚ × ℚ)) :
    ∀ (L : List ℕ) (acc : SegAcc),
      ((L.foldl (segStep n_bins seg mind maxd r_min direction pts) acc).out.srsq.length
          = acc.out.srsq.length + L.length)
      ∧ ((L.foldl (segStep n_bins seg mind maxd r_min direction pts) acc).out.duration.length
          = acc.out.duration.length + L.length)
      ∧ ((L.foldl (segStep n_bins seg mind maxd r_min direction pts) acc).out.depth.length
          = acc.out.depth.length + L.length)
      ∧ ((L.foldl (segStep n_bins seg mind maxd r_min direction pts) acc).out.midtime.length
          = acc.out.midtime.length + L.length) := by
  intro L
  induction L with
  | nil => intro acc; simp
  | cons q L ih =>
    intro acc
    simp only [List.foldl_cons]
    obtain ⟨v, hv1, -, -⟩ := segStep_spec n_bins seg mind maxd r_min direction pts acc q
    obtain ⟨l1, l2, l3, l4⟩ := ih (segStep n_bins seg mind maxd r_min direction pts acc q)
    rw [hv1] at l1 l2 l3 l4
    simp only [List.length_append, List.length_cons, List.length_nil] at l1 l2 l3 l4
    refine ⟨?_, ?_, ?_, ?_⟩ <;> simp only [List.length_cons] <;> omega

/-- Entries already recorded are unchanged by later segments. -/
theorem segFold_prefix (n_bins : ℕ) (seg mind maxd : ℚ) (r_min direction : ℤ)
    (pts : List (ℚ × ℚ)) :
    ∀ (L : List ℕ) (acc : SegAcc) (j : ℕ),
      (j < acc.out.srsq.length →
        (L.foldl (segStep n_bins seg mind maxd r_min direction pts) acc).out.srsq.getD j FP.nan
          = acc.out.srsq.getD j FP.nan)
      ∧ (j < acc.out.duration.length →
        (L.foldl (segStep n_bins seg mind maxd r_min direction pts) acc).out.duration.getD j FP.nan
          = acc.out.duration.getD j FP.nan)
      ∧ (j < acc.out.depth.length →
        (L.foldl (segStep n_bins seg mind maxd r_min direction pts) acc).out.depth.getD j FP.nan
          = acc.out.depth.getD j FP.nan)
      ∧ (j < acc.out.midtime.length →
        (L.foldl (segStep n_bins seg mind maxd r_min direction pts) acc).out.midtime.getD j FP.nan
          = acc.out.midtime.getD j FP.nan) := by
  intro L
  induction L with
  | nil => intro acc j; exact ⟨fun _ => rfl, fun _ => rfl, fun _ => rfl, fun _ => rfl⟩
  | cons q L ih =>
    intro acc j
    simp only [List.foldl_cons]
    obtain ⟨v, hv1, -, -⟩ := segStep_spec n_bins seg mind maxd r_min direction pts acc q
    obtain ⟨p1, p2, p3, p4⟩ := ih (segStep n_bins seg mind maxd r_min direction pts acc q) j
    rw [hv1] at p1 p2 p3 p4
    refine ⟨?_, ?_, ?_, ?_⟩
    · intro hj
      rw [p1 (by simp; omega)]
      exact List.getD_append _ _ _ _ hj
    · intro hj
      rw [p2 (by simp; omega)]
      exact List.getD_append _ _ _ _ hj
    · intro hj
      rw [p3 (by simp; omega)]
      exact List.getD_append _ _ _ _ hj
    · intro hj
      rw [p4 (by simp; omega)]
      exact List.getD_append _ _ _ _ hj

/-- The all-or-nothing property is preserved by the segment fold. -/
theorem segFold_allOrNothing (n_bins : ℕ) (seg mind maxd : ℚ) (r_min direction : ℤ)
    (pts : List (ℚ × ℚ)) :
    ∀ (L : List ℕ) (acc : SegAcc),
      acc.out.duration.length = acc.out.srsq.length →
      acc.out.depth.length = acc.out.srsq.length →
      acc.out.midtime.length = acc.out.srsq.length →
      (∀ j, allOrNothing acc.out j) →
      ∀ j, allOrNothing
        ((L.foldl (segStep n_bins seg mind maxd r_min direction pts) acc).out) j := by
  intro L
  induction L with
  | nil => intro acc _ _ _ h j; exact h j
  | cons q L ih =>
    intro acc h1 h2 h3 hall
    simp only [List.foldl_cons]
    obtain ⟨v, hv1, hv2, -⟩ := segStep_spec n_bins seg mind maxd r_min direction pts acc q
    apply ih
    · rw [hv1]; simp [h1]
    · rw [hv1]; simp [h2]
    · rw [hv1]; simp [h3]
    · intro j
      rw [hv1]
      unfold allOrNothing
      dsimp only
      rcases lt_trichotomy j acc.out.srsq.length with hj | hj | hj
      · rw [List.getD_append _ _ _ _ hj, List.getD_append _ _ _ _ (by omega),
          List.getD_append _ _ _ _ (by omega), List.getD_append _ _ _ _ (by omega)]
        exact hall j
      · rw [hj, getD_snoc_self, ← h1, getD_snoc_self, h1, ← h2, getD_snoc_self, h2,
          ← h3, getD_snoc_self]
        exact hv2
      · rw [getD_snoc_beyond _ _ _ hj, getD_snoc_beyond _ _ _ (by omega),
          getD_snoc_beyond _ _ _ (by omega), getD_snoc_beyond _ _ _ (by omega)]
        exact Or.inr ⟨rfl, rfl, rfl, rfl⟩

/-- C2.  For every input light curve on which the pipeline completes, each
segment entry of the result is all-or-nothing: the four output fields
(signal residue, duration, depth, midtime) are simultaneously finite or
simultaneously NaN — never mixed.  (Out-of-range indices read the NaN
default on all four fields at once, so the statement is over all `j`.) -/
theorem spec_c2 (time : List ℚ) (flux fluxerr : List FP) (n_bins : ℕ)
    (segment_size min_duration max_duration : ℚ) (direction : ℤ) (out : BLSOutput)
    (h : bls_pulse time flux fluxerr n_bins segment_size min_duration max_duration direction
      = some out) :
    ∀ j, allOrNothing out j := by
  unfold bls_pulse at h
  dsimp only at h
  split at h
  · cases h
  · split at h
    · cases h
    · split at h
      · cases h
      · cases h
        intro j
        exact segFold_allOrNothing n_bins segment_size min_duration max_duration _ direction
          (finitePairs time flux) (List.range (nsegmentsOf (finitePairs time flux) segment_size))
          ⟨convert_duration_to_bins min_duration (n_bins : ℤ) segment_size "min",
           convert_duration_to_bins max_duration (n_bins : ℤ) segment_size "max",
           ⟨[], [], [], []⟩⟩ rfl rfl rfl (fun _ => Or.inr ⟨rfl, rfl, rfl, rfl⟩) j

/-- Witness for C2: run A's segment 1 carries a finite candidate in all four
fields at once (and its segment 0 is all NaN). -/
theorem spec_c2_witness :
    allOrNothing ⟨[FP.nan, FP.fin 2], [FP.nan, FP.fin (3/2000)], [FP.nan, FP.fin (-1)],
      [FP.nan, FP.fin (3/800)]⟩ 1 :=
  spec_c2 tA fA [] 3 (3/1000) (2/1000) (3/1000) 0
    ⟨[FP.nan, FP.fin 2], [FP.nan, FP.fin (3/2000)], [FP.nan, FP.fin (-1)],
      [FP.nan, FP.fin (3/800)]⟩ (by decide) 1

/-- In the segment fold, a segment with no member samples produces the
all-NaN entry at its own index, which later segments never touch. -/
theorem segFold_empty_entry (n_bins : ℕ) (seg mind maxd : ℚ) (r_min direction : ℤ)
    (pts : List (ℚ × ℚ)) (nseg q : ℕ) (hq : q < nseg)
    (hempty : segMembers pts seg q = []) (acc0 : SegAcc)
    (h01 : acc0.out.srsq = []) (h02 : acc0.out.duration = [])
    (h03 : acc0.out.depth = []) (h04 : acc0.out.midtime = []) :
    q < ((List.range nseg).foldl
        (segStep n_bins seg mind maxd r_min direction pts) acc0).out.srsq.length
    ∧ ((List.range nseg).foldl
        (segStep n_bins seg mind maxd r_min direction pts) acc0).out.srsq.getD q FP.nan
        = FP.nan
    ∧ ((List.range nseg).foldl
        (segStep n_bins seg mind maxd r_min direction pts) acc0).out.duration.getD q FP.nan
        = FP.nan
    ∧ ((List.range nseg).foldl
        (segStep n_bins seg mind maxd r_min direction pts) acc0).out.depth.getD q FP.nan
        = FP.nan
    ∧ ((List.range nseg).foldl
        (segStep n_bins seg mind maxd r_min direction pts) acc0).out.midtime.getD q FP.nan
        = FP.nan := by
  have hsplit : List.range nseg = List.range' 0 q ++ List.range' q (nseg - q) := by
    rw [List.range_eq_range']
    have h := List.range'_append 0 q (nseg - q) 1
    rw [show 0 + 1 * q = q from by omega, show nseg - q + q = nseg from by omega] at h
    exact h.symm
  rw [hsplit, List.foldl_append]
  obtain ⟨e1, e2, e3, e4⟩ :=
    segFold_lengths n_bins seg mind maxd r_min direction pts (List.range' 0 q) acc0
  rw [h01] at e1
  rw [h02] at e2
  rw [h03] at e3
  rw [h04] at e4
  simp only [List.length_nil, Nat.zero_add, List.length_range'] at e1 e2 e3 e4
  rw [show nseg - q = (nseg - q - 1) + 1 from by omega, List.range'_succ, List.foldl_cons]
  obtain ⟨v, hv1, -, hv3⟩ := segStep_spec n_bins seg mind maxd r_min direction pts
    ((List.range' 0 q).foldl (segStep n_bins seg mind maxd r_min direction pts) acc0) q
  rw [hv3 hempty] at hv1
  obtain ⟨p1, p2, p3, p4⟩ := segFold_prefix n_bins seg mind maxd r_min direction pts
    (List.range' (q + 1) (nseg - q - 1))
    (segStep n_bins seg mind maxd r_min direction pts
      ((List.range' 0 q).foldl (segStep n_bins seg mind maxd r_min direction pts) acc0) q) q
  have hl1 : q < (segStep n_bins seg mind maxd r_min direction pts
      ((List.range' 0 q).foldl (segStep n_bins seg mind maxd r_min direction pts) acc0)
      q).out.srsq.length := by
    rw [hv1]
    dsimp only
    simp only [List.length_append, List.length_cons, List.length_nil]
    omega
  have hl2 : q < (segStep n_bins seg mind maxd r_min direction pts
      ((List.range' 0 q).foldl (segStep n_bins seg mind maxd r_min direction pts) acc0)
      q).out.duration.length := by
    rw [hv1]
    dsimp only
    simp only [List.length_append, List.length_cons, List.length_nil]
    omega
  have hl3 : q < (segStep n_bins seg mind maxd r_min direction pts
      ((List.range' 0 q).foldl (segStep n_bins seg mind maxd r_min direction pts) acc0)
      q).out.depth.length := by
    rw [hv1]
    dsimp only
    simp only [List.length_append, List.length_cons, List.length_nil]
    omega
  have hl4 : q < (segStep n_bins seg mind maxd r_min direction pts
      ((List.range' 0 q).foldl (segStep n_bins seg mind maxd r_min direction pts) acc0)
      q).out.midtime.length := by
    rw [hv1]
    dsimp only
    simp only [List.length_append, List.length_cons, List.length_nil]
    omega
  refine ⟨?_, ?_, ?_, ?_, ?_⟩
  · obtain ⟨f1, -, -, -⟩ := segFold_lengths n_bins seg mind maxd r_min direction pts
      (List.range' (q + 1) (nseg - q - 1))
      (segStep n_bins seg mind maxd r_min direction pts
        ((List.range' 0 q).foldl (segStep n_bins seg mind maxd r_min direction pts) acc0) q)
    rw [f1]
    omega
  · rw [p1 hl1, hv1]
    dsimp only
    exact getD_snoc_eq _ _ _ e1
  · rw [p2 hl2, hv1]
    dsimp only
    exact getD_snoc_eq _ _ _ e2
  · rw [p3 hl3, hv1]
    dsimp only
    exact getD_snoc_eq _ _ _ e3
  · rw [p4 hl4, hv1]
    dsimp only
    exact getD_snoc_eq _ _ _ e4

/-- C8.  On any run of the pipeline that completes, a segment whose time
window contains zero data points gets an output entry (no exception — the
loop body is total and simply appends), and that entry is all NaN in all
four fields. -/
theorem spec_c8 (time : List ℚ) (flux fluxerr : List FP) (n_bins : ℕ)
    (segment_size min_duration max_duration : ℚ) (direction : ℤ) (out : BLSOutput) (q : ℕ)
    (h : bls_pulse time flux fluxerr n_bins segment_size min_duration max_duration direction
      = some out)
    (hq : q < nsegmentsOf (finitePairs time flux) segment_size)
    (hempty : segMembers (finitePairs time flux) segment_size q = []) :
    q < out.srsq.length
    ∧ out.srsq.getD q FP.nan = FP.nan
    ∧ out.duration.getD q FP.nan = FP.nan
    ∧ out.depth.getD q FP.nan = FP.nan
    ∧ out.midtime.getD q FP.nan = FP.nan := by
  unfold bls_pulse at h
  dsimp only at h
  split at h
  · cases h
  · split at h
    · cases h
    · split at h
      · cases h
      · cases h
        exact segFold_empty_entry n_bins segment_size min_duration max_duration _ direction
          (finitePairs time flux) (nsegmentsOf (finitePairs time flux) segment_size) q hq
          hempty
          ⟨convert_duration_to_bins min_duration (n_bins : ℤ) segment_size "min",
           convert_duration_to_bins max_duration (n_bins : ℤ) segment_size "max",
           ⟨[], [], [], []⟩⟩ rfl rfl rfl rfl

/-- Witness for C8 at run C: segment 1 of three is empty and all four of its
fields are NaN. -/
theorem spec_c8_witness :
    1 < (⟨[FP.nan, FP.nan, FP.nan], [FP.nan, FP.nan, FP.nan], [FP.nan, FP.nan, FP.nan],
        [FP.nan, FP.nan, FP.nan]⟩ : BLSOutput).srsq.length
    ∧ (⟨[FP.nan, FP.nan, FP.nan], [FP.nan, FP.nan, FP.nan], [FP.nan, FP.nan, FP.nan],
        [FP.nan, FP.nan, FP.nan]⟩ : BLSOutput).srsq.getD 1 FP.nan = FP.nan
    ∧ (⟨[FP.nan, FP.nan, FP.nan], [FP.nan, FP.nan, FP.nan], [FP.nan, FP.nan, FP.nan],
        [FP.nan, FP.nan, FP.nan]⟩ : BLSOutput).duration.getD 1 FP.nan = FP.nan
    ∧ (⟨[FP.nan, FP.nan, FP.nan], [FP.nan, FP.nan, FP.nan], [FP.nan, FP.nan, FP.nan],
        [FP.nan, FP.nan, FP.nan]⟩ : BLSOutput).depth.getD 1 FP.nan = FP.nan
    ∧ (⟨[FP.nan, FP.nan, FP.nan], [FP.nan, FP.nan, FP.nan], [FP.nan, FP.nan, FP.nan],
        [FP.nan, FP.nan, FP.nan]⟩ : BLSOutput).midtime.getD 1 FP.nan = FP.nan :=
  spec_c8 tC fC [] 1 1 1 1 0
    ⟨[FP.nan, FP.nan, FP.nan], [FP.nan, FP.nan, FP.nan], [FP.nan, FP.nan, FP.nan],
      [FP.nan, FP.nan, FP.nan]⟩ 1 (by decide) (by decide) (by decide)

/-- C10.  `bls_pulse` accepts a flux-error sequence but never reads it
(matching the source, where `fluxerr` occurs only in the signature), so two
runs differing only in `fluxerr` produce identical outputs. -/
theorem spec_c10 (time : List ℚ) (flux fluxerr1 fluxerr2 : List FP) (n_bins : ℕ)
    (segment_size min_duration max_duration : ℚ) (direction : ℤ) :
    bls_pulse time flux fluxerr1 n_bins segment_size min_duration max_duration direction
      = bls_pulse time flux fluxerr2 n_bins segment_size min_duration max_duration direction :=
  rfl

/-- C3 evaluation.  Runs A and B share segment 1's samples exactly, and share
both pipeline-wide precomputed values (median sample spacing 1/1000, hence
the same rMin), yet segment 1's reported signal residue differs: run A's
sparse segment 0 (one point) shrinks `mindur`/`maxdur` to (1, 1), and those
stale bounds are reused for segment 1 because the source only recomputes
them inside the `if n < nbins` branch; run B's full segment 0 leaves the
original bounds (2, 3), under which no pair is admissible. -/
theorem spec_c3_eval :
    (bls_pulse tA fA [] 3 (3/1000) (2/1000) (3/1000) 0).map (fun o => o.srsq.getD 1 FP.nan)
        = some (FP.fin 2)
    ∧ (bls_pulse tB fB [] 3 (3/1000) (2/1000) (3/1000) 0).map (fun o => o.srsq.getD 1 FP.nan)
        = some FP.nan
    ∧ segMembers (finitePairs tA fA) (3/1000) 1 = segMembers (finitePairs tB fB) (3/1000) 1
    ∧ median (diffsOf ((finitePairs tA fA).map Prod.fst))
        = median (diffsOf ((finitePairs tB fB).map Prod.fst))
    ∧ (⌈(2/1000 : ℚ) / median (diffsOf ((finitePairs tA fA).map Prod.fst))⌉ : ℤ)
        = ⌈(2/1000 : ℚ) / median (diffsOf ((finitePairs tB fB).map Prod.fst))⌉ := by
  decide

/-- C6 evaluation.  In run A, segment 1 (three points, effective bin count
3) records a finite candidate, and the duration bounds effective for that
bin count are `minDurBins = 2` (and `maxDurBins = 3`); but the pair actually
recorded is `(i1, i2) = (0, 1)` with bin span 1 < 2, found under the stale
bounds (1, 1) carried over from sparse segment 0 — indeed under the
effective bounds (2, 3) the admissible-pair list is empty, so no candidate
at all could satisfy the claimed invariant. -/
theorem spec_c6_eval :
    (bls_pulse tA fA [] 3 (3/1000) (2/1000) (3/1000) 0).map (fun o => o.srsq.getD 1 FP.nan)
        = some (FP.fin 2)
    ∧ convert_duration_to_bins (2/1000) 3 (3/1000) "min" = 2
    ∧ convert_duration_to_bins (3/1000) 3 (3/1000) "max" = 3
    ∧ pickBest 3 (binnedFluxes ptsA1 edgesA1 3) (ppbOf ptsA1 edgesA1 3)
        (contribs 3 3 1 1 2 0 (binnedFluxes ptsA1 edgesA1 3) (ppbOf ptsA1 edgesA1 3))
        = some (0, 1)
    ∧ contribs 3 3 2 3 2 0 (binnedFluxes ptsA1 edgesA1 3) (ppbOf ptsA1 edgesA1 3) = [] := by
  decide
